import Mathlib

/-!
Verification development for `redirects.py`: a script that, for each
(short-name, destination-URL) pair of a YAML mapping, fetches the destination,
extracts Open Graph `<meta property="og:..." content="...">` tags from the
response body, generates a static redirect HTML page re-exposing those tags,
and writes it into an output directory.

The embedding models:
  * an HTML document as the list of its elements, each element keeping its tag
    name and the two attributes the script consults (`property`, `content`),
    an absent attribute being `none` (BeautifulSoup `tag.get` returns `None`);
  * a Python `dict` as an insertion-ordered association list, where updating
    an existing key keeps its position and only replaces the value;
  * the HTTP layer as an oracle `String → Except String Response`, a
    `Response` carrying the status code and the (already parsed) body;
  * the fetch-and-write loop `redirects` as a pure recursion returning the
    list of (path, contents) files written, plus the fatal error, if any.
-/

namespace Redirects

/-- One HTML element, restricted to the fields `redirects.py` consults:
the tag name (`find_all('meta', ...)` filters on it) and the `property` /
`content` attributes (`tag.get('property')`, `tag.get('content')`; `none`
models Python `None` for an absent attribute). -/
structure MetaTag where
  name : String
  property : Option String
  content : Option String
deriving DecidableEq, Repr

/-- Python `s.startswith(pre)`: prefix test, modelled on the character list
of the string. -/
def strStartsWith (s pre : String) : Bool :=
  pre.data.isPrefixOf s.data

/-- The element filter of `bs.find_all('meta', property=lambda p: p and
p.startswith('og:'))` (src/redirects.py:31): the element is a `meta` tag whose
`property` attribute is present, truthy, and starts with `og:` (an empty
string is falsy in Python, and also fails `startswith('og:')`). -/
def ogFilter (tag : MetaTag) : Bool :=
  tag.name == "meta" &&
    (match tag.property with
     | some p => p != "" && strStartsWith p "og:"
     | none => false)

/-- Python-dict insertion `og_meta[property_name] = content`: an existing key
keeps its position in the iteration order and has its value replaced; a new
key is appended at the end. -/
def dictInsert (d : List (String × String)) (k v : String) : List (String × String) :=
  match d with
  | [] => [(k, v)]
  | (k₁, v₁) :: rest => if k₁ = k then (k, v) :: rest else (k₁, v₁) :: dictInsert rest k v

/-- The loop body of `parse_opengraph_meta` (src/redirects.py:32-35):
`property_name = tag.get('property'); content = tag.get('content');
if property_name and content: og_meta[property_name] = content`.
Python truthiness: record only when both attributes are present (`some`)
and non-empty. -/
def recordTag (og_meta : List (String × String)) (tag : MetaTag) : List (String × String) :=
  match tag.property, tag.content with
  | some p, some c => if p ≠ "" ∧ c ≠ "" then dictInsert og_meta p c else og_meta
  | _, _ => og_meta

/-- `parse_opengraph_meta` (src/redirects.py:20-36): fold `recordTag` over the
elements selected by `ogFilter`, starting from the empty dict. -/
def parse_opengraph_meta (doc : List MetaTag) : List (String × String) :=
  (doc.filter ogFilter).foldl recordTag []

/-- `generate_redirect_html` (src/redirects.py:39-62), with the f-string
templates transcribed literally: fixed head, refresh meta with the URL
interpolated, one `<meta property content>` line appended per dict entry in
iteration order, then `</head>` and the fallback body. No value is escaped. -/
def generate_redirect_html (url : String) (og_tags : List (String × String)) : String :=
  let html := "<!DOCTYPE html>\n<html lang=\"en\">\n<head>\n    <meta charset=\"UTF-8\">\n    <title>Redirecting...</title>\n    <meta http-equiv=\"refresh\" content=\"0; url=" ++ url ++ "\">\n"
  let html := og_tags.foldl
    (fun html pc =>
      html ++ "    <meta property=\"" ++ pc.1 ++ "\" content=\"" ++ pc.2 ++ "\">\n")
    html
  html ++ "</head>\n<body><p>Redirecting to <a href=\"" ++ url ++ "\">" ++ url ++ "</a>.</p></body>\n</html>\n"

/-- Python `src.endswith('.html')`: suffix test, modelled on the character
list of the string. -/
def strEndsWith (s suffix₁ : String) : Bool :=
  suffix₁.data.isSuffixOf s.data

/-- The filename computation of the loop (src/redirects.py:82-84):
`name = src; if not src.endswith('.html'): name += '.html'`. -/
def outputName (src : String) : String :=
  if strEndsWith src ".html" then src else src ++ ".html"

/-- `os.path.join(out_dir, name)` on POSIX (src/redirects.py:85): if the
second component is absolute it replaces the first; otherwise the two are
joined, inserting `/` unless the first is empty or already ends in `/`.
Single-character `startswith`/`endswith` tests are modelled on the character
list. -/
def joinPath (a b : String) : String :=
  if b.data.head? = some '/' then b
  else if a = "" ∨ a.data.getLast? = some '/' then a ++ b
  else a ++ "/" ++ b

/-- An HTTP response as the loop consumes it: the status code and the parsed
body (`BeautifulSoup(res.text, ...)` is modelled as the element list). -/
structure Response where
  status : Nat
  body : List MetaTag

/-- Processing of one successfully fetched pair (src/redirects.py:80-87):
parse the body, generate the page, and produce the (path, contents) file
written. The status code of the response is never consulted. -/
def processPair (out_dir src dst : String) (res : Response) : String × String :=
  (joinPath out_dir (outputName src),
   generate_redirect_html dst (parse_opengraph_meta res.body))

/-- The fetch-and-write loop of `redirects` (src/redirects.py:74-88) over an
oracle `fetch`: on a fetch failure the `RequestException` is wrapped as
`RuntimeError("Error fetching {dst}: {e}")` and aborts the run, leaving the
files written for earlier pairs in place and writing nothing for the failing
or subsequent pairs; on success the generated file is written and the loop
continues. The result is (files written, fatal error if any). -/
def runRedirects (fetch : String → Except String Response) (out_dir : String) :
    List (String × String) → List (String × String) × Option String
  | [] => ([], none)
  | (src, dst) :: rest =>
    match fetch dst with
    | .error e => ([], some ("Error fetching " ++ dst ++ ": " ++ e))
    | .ok res =>
      let file := processPair out_dir src dst res
      let r := runRedirects fetch out_dir rest
      (file :: r.1, r.2)

/-! Specification-side helper definitions, used to state the theorems. -/

/-- The fixed document head emitted before the refresh directive. -/
def docHead : String :=
  "<!DOCTYPE html>\n<html lang=\"en\">\n<head>\n    <meta charset=\"UTF-8\">\n    <title>Redirecting...</title>\n"

/-- The single refresh meta line, requesting 0-second navigation to `url`. -/
def refreshLine (url : String) : String :=
  "    <meta http-equiv=\"refresh\" content=\"0; url=" ++ url ++ "\">\n"

/-- One emitted Open Graph meta line for a dict entry. -/
def ogMetaLine (p c : String) : String :=
  "    <meta property=\"" ++ p ++ "\" content=\"" ++ c ++ "\">\n"

/-- Head closing and fallback body emitted after the meta lines. -/
def docTail (url : String) : String :=
  "</head>\n<body><p>Redirecting to <a href=\"" ++ url ++ "\">" ++ url ++ "</a>.</p></body>\n</html>\n"

/-- Concatenation of a list of strings. -/
def strConcat : List String → String
  | [] => ""
  | s :: l => s ++ strConcat l

/-- `needle` occurs verbatim (as a contiguous substring) in `hay`. -/
def occursIn (needle hay : String) : Prop :=
  ∃ a b, hay = a ++ needle ++ b

/-- Ordered lookup in the association-list dict. -/
def dlookup (k : String) : List (String × String) → Option String
  | [] => none
  | (k₁, v) :: rest => if k₁ = k then some v else dlookup k rest

/-- Number of entries of the dict whose key is `k`. -/
def countKey (k : String) (d : List (String × String)) : Nat :=
  (d.filter (fun e => e.1 == k)).length

/-- The content value `recordTag` would record for key `k` from this tag:
`some c` iff the tag has `property = some k`, `content = some c`, both
non-empty. -/
def recVal (k : String) (tag : MetaTag) : Option String :=
  match tag.property, tag.content with
  | some p, some c => if (p ≠ "" ∧ c ≠ "") ∧ p = k then some c else none
  | _, _ => none

/-- Content values that qualifying occurrences of property `k` contribute,
in document order. -/
def qualVals (k : String) (doc : List MetaTag) : List String :=
  (doc.filter ogFilter).filterMap (recVal k)

/-- Left-biased choice on options. -/
def optOr {α : Type} : Option α → Option α → Option α
  | some a, _ => some a
  | none, b => b

/-- Last element of a list, `none` when empty. -/
def lastOpt {α : Type} : List α → Option α
  | [] => none
  | a :: l => optOr (lastOpt l) (some a)

/-- Projection of a fetch result onto the response body, forgetting the
status code. -/
def exceptBody : Except String Response → Except String (List MetaTag)
  | .error e => .error e
  | .ok r => .ok r.body

/-- Reading of the claim "the output path introduces no subdirectory nesting
derived from the mapping key": the filename derived from the key contributes
no path separator to the output path. -/
def keyNestingFree (src : String) : Prop :=
  '/' ∉ (outputName src).data

/-! Basic string lemmas. -/

theorem strData_append (a b : String) : (a ++ b).data = a.data ++ b.data := rfl

theorem strExt {a b : String} (h : a.data = b.data) : a = b := by
  cases a
  cases b
  exact congrArg String.mk h

theorem strAppend_assoc (a b c : String) : a ++ b ++ c = a ++ (b ++ c) :=
  strExt (by simp only [strData_append, List.append_assoc])

theorem strAppend_empty (a : String) : a ++ "" = a :=
  strExt (List.append_nil a.data)

theorem strEmpty_append (a : String) : "" ++ a = a :=
  strExt (List.nil_append a.data)

/-! Lemmas on the ordered dict and the extractor. -/

theorem optOr_none_right {α : Type} (a : Option α) : optOr a none = a := by
  cases a <;> rfl

theorem optOr_assoc {α : Type} (a b c : Option α) :
    optOr (optOr a b) c = optOr a (optOr b c) := by
  cases a <;> rfl

theorem dlookup_dictInsert (k k₁ v : String) (d : List (String × String)) :
    dlookup k (dictInsert d k₁ v) = if k₁ = k then some v else dlookup k d := by
  induction d with
  | nil => simp [dictInsert, dlookup]
  | cons e rest ih =>
    obtain ⟨k₂, v₂⟩ := e
    by_cases h2 : k₂ = k₁
    · subst h2
      by_cases hk : k₂ = k <;> simp [dictInsert, dlookup, hk]
    · rw [show dictInsert ((k₂, v₂) :: rest) k₁ v = (k₂, v₂) :: dictInsert rest k₁ v from
        by simp [dictInsert, h2]]
      by_cases hk : k₂ = k
      · subst hk
        rw [if_neg (fun h : k₁ = k₂ => h2 h.symm)]
        simp [dlookup]
      · simp [dlookup, hk, ih]

theorem dlookup_recordTag (k : String) (d : List (String × String)) (t : MetaTag) :
    dlookup k (recordTag d t) = optOr (recVal k t) (dlookup k d) := by
  unfold recordTag recVal
  cases hp : t.property with
  | none => rfl
  | some p =>
    cases hc : t.content with
    | none => rfl
    | some c =>
      show dlookup k (if p ≠ "" ∧ c ≠ "" then dictInsert d p c else d)
          = optOr (if (p ≠ "" ∧ c ≠ "") ∧ p = k then some c else none) (dlookup k d)
      by_cases h1 : p ≠ "" ∧ c ≠ ""
      · rw [if_pos h1, dlookup_dictInsert]
        by_cases hk : p = k
        · rw [if_pos hk, if_pos ⟨h1, hk⟩]
          rfl
        · rw [if_neg hk, if_neg (fun h2 => hk h2.2)]
          rfl
      · rw [if_neg h1, if_neg (fun h2 => h1 h2.1)]
        rfl

theorem dlookup_foldl (k : String) (l : List MetaTag) (d : List (String × String)) :
    dlookup k (l.foldl recordTag d)
      = optOr (lastOpt (l.filterMap (recVal k))) (dlookup k d) := by
  induction l generalizing d with
  | nil => simp [lastOpt, optOr]
  | cons t l ih =>
    rw [List.foldl_cons, ih, dlookup_recordTag]
    cases hv : recVal k t with
    | none => simp [List.filterMap_cons, hv, optOr]
    | some c => simp [List.filterMap_cons, hv, lastOpt, optOr_assoc]

theorem dlookup_parse (k : String) (doc : List MetaTag) :
    dlookup k (parse_opengraph_meta doc) = lastOpt (qualVals k doc) := by
  unfold parse_opengraph_meta qualVals
  rw [dlookup_foldl]
  exact optOr_none_right _

theorem mem_keys_dictInsert (a k v : String) (d : List (String × String)) :
    a ∈ (dictInsert d k v).map Prod.fst ↔ a = k ∨ a ∈ d.map Prod.fst := by
  induction d with
  | nil => simp [dictInsert]
  | cons e rest ih =>
    obtain ⟨k₁, v₁⟩ := e
    by_cases h : k₁ = k
    · subst h
      simp [dictInsert]
    · simp [dictInsert, h, ih]
      tauto

theorem nodup_keys_dictInsert (k v : String) (d : List (String × String))
    (h : (d.map Prod.fst).Nodup) : ((dictInsert d k v).map Prod.fst).Nodup := by
  induction d with
  | nil => simp [dictInsert]
  | cons e rest ih =>
    obtain ⟨k₁, v₁⟩ := e
    simp only [List.map_cons, List.nodup_cons] at h
    by_cases hk : k₁ = k
    · subst hk
      simp [dictInsert, List.nodup_cons, h.1, h.2]
    · simp only [dictInsert, if_neg hk, List.map_cons, List.nodup_cons]
      refine ⟨?_, ih h.2⟩
      intro h3
      rcases (mem_keys_dictInsert k₁ k v rest).1 h3 with h4 | h4
      · exact hk h4
      · exact h.1 h4

theorem nodup_keys_recordTag (d : List (String × String)) (t : MetaTag)
    (h : (d.map Prod.fst).Nodup) : ((recordTag d t).map Prod.fst).Nodup := by
  unfold recordTag
  cases t.property with
  | none => exact h
  | some p =>
    cases t.content with
    | none => exact h
    | some c =>
      show (List.map Prod.fst (if p ≠ "" ∧ c ≠ "" then dictInsert d p c else d)).Nodup
      by_cases h1 : p ≠ "" ∧ c ≠ ""
      · rw [if_pos h1]
        exact nodup_keys_dictInsert p c d h
      · rw [if_neg h1]
        exact h

theorem nodup_keys_foldl (l : List MetaTag) (d : List (String × String))
    (h : (d.map Prod.fst).Nodup) : ((l.foldl recordTag d).map Prod.fst).Nodup := by
  induction l generalizing d with
  | nil => exact h
  | cons t l ih => exact ih _ (nodup_keys_recordTag d t h)

theorem nodup_keys_parse (doc : List MetaTag) :
    ((parse_opengraph_meta doc).map Prod.fst).Nodup :=
  nodup_keys_foldl _ [] (by simp)

theorem dlookup_mem {k c : String} {d : List (String × String)}
    (h : dlookup k d = some c) : (k, c) ∈ d := by
  induction d with
  | nil => simp [dlookup] at h
  | cons e rest ih =>
    obtain ⟨k₁, v₁⟩ := e
    by_cases hk : k₁ = k
    · subst hk
      simp [dlookup] at h
      subst h
      exact List.mem_cons_self _ _
    · simp only [dlookup, if_neg hk] at h
      exact List.mem_cons_of_mem _ (ih h)

theorem countKey_eq_one {k c : String} {d : List (String × String)}
    (hn : (d.map Prod.fst).Nodup) (hm : (k, c) ∈ d) : countKey k d = 1 := by
  unfold countKey
  induction d with
  | nil => simp at hm
  | cons e rest ih =>
    obtain ⟨k₁, v₁⟩ := e
    simp only [List.map_cons, List.nodup_cons] at hn
    rcases List.mem_cons.1 hm with he | hm2
    · obtain ⟨hk, hv⟩ := Prod.mk.injEq .. ▸ he
      subst hk
      have hrest : rest.filter (fun e => e.1 == k) = [] := by
        rw [List.filter_eq_nil_iff]
        intro a ha h2
        exact hn.1 (List.mem_map.2 ⟨a, ha, beq_iff_eq.1 h2⟩)
      simp [List.filter_cons, hrest]
    · have hkmem : k ∈ rest.map Prod.fst := List.mem_map.2 ⟨(k, c), hm2, rfl⟩
      have hne : ¬ (k₁ == k) = true := by
        intro h2
        exact hn.1 (beq_iff_eq.1 h2 ▸ hkmem)
      simp only [List.filter_cons, hne]
      exact ih hn.2 hm2

theorem lastOpt_cons_isSome {α : Type} (a : α) (l : List α) :
    ∃ c, lastOpt (a :: l) = some c := by
  cases h : lastOpt l with
  | none => exact ⟨a, by simp [lastOpt, h, optOr]⟩
  | some b => exact ⟨b, by simp [lastOpt, h, optOr]⟩

theorem mem_dictInsert {x : String × String} {d : List (String × String)} {k v : String}
    (h : x ∈ dictInsert d k v) : x = (k, v) ∨ x ∈ d := by
  induction d with
  | nil =>
    simp only [dictInsert, List.mem_singleton] at h
    exact Or.inl h
  | cons e rest ih =>
    obtain ⟨k₁, v₁⟩ := e
    by_cases hk : k₁ = k
    · subst hk
      simp only [dictInsert, if_pos rfl] at h
      rcases List.mem_cons.1 h with h | h
      · exact Or.inl h
      · exact Or.inr (List.mem_cons_of_mem _ h)
    · simp only [dictInsert, if_neg hk] at h
      rcases List.mem_cons.1 h with h | h
      · exact Or.inr (List.mem_cons.2 (Or.inl h))
      · rcases ih h with h | h
        · exact Or.inl h
        · exact Or.inr (List.mem_cons_of_mem _ h)

theorem recVal_some {k c : String} {t : MetaTag} (h : recVal k t = some c) :
    t.property = some k ∧ t.content = some c ∧ k ≠ "" ∧ c ≠ "" := by
  unfold recVal at h
  cases hp : t.property with
  | none =>
    rw [hp] at h
    cases h
  | some p =>
    cases hc : t.content with
    | none =>
      rw [hp, hc] at h
      cases h
    | some c₁ =>
      rw [hp, hc] at h
      have h2 : (if (p ≠ "" ∧ c₁ ≠ "") ∧ p = k then some c₁ else none) = some c := h
      by_cases h1 : (p ≠ "" ∧ c₁ ≠ "") ∧ p = k
      · rw [if_pos h1] at h2
        have hc2 : c₁ = c := Option.some.inj h2
        obtain ⟨⟨hpne, hcne⟩, hpk⟩ := h1
        subst hc2
        subst hpk
        exact ⟨rfl, rfl, hpne, hcne⟩
      · rw [if_neg h1] at h2
        cases h2

theorem mem_recordTag {x : String × String} {d : List (String × String)} {t : MetaTag}
    (h : x ∈ recordTag d t) : x ∈ d ∨ recVal x.1 t = some x.2 := by
  cases hp : t.property with
  | none =>
    left
    unfold recordTag at h
    rw [hp] at h
    exact h
  | some p =>
    cases hc : t.content with
    | none =>
      left
      unfold recordTag at h
      rw [hp, hc] at h
      exact h
    | some c =>
      unfold recordTag at h
      rw [hp, hc] at h
      have h2 : x ∈ (if p ≠ "" ∧ c ≠ "" then dictInsert d p c else d) := h
      by_cases h1 : p ≠ "" ∧ c ≠ ""
      · rw [if_pos h1] at h2
        rcases mem_dictInsert h2 with h3 | h3
        · right
          subst h3
          unfold recVal
          rw [hp, hc]
          show (if (p ≠ "" ∧ c ≠ "") ∧ p = p then some c else none) = some c
          simp [h1]
        · exact Or.inl h3
      · rw [if_neg h1] at h2
        exact Or.inl h2

theorem ogFilter_spec {t : MetaTag} {p : String} (hf : ogFilter t = true)
    (hp : t.property = some p) :
    t.name = "meta" ∧ p ≠ "" ∧ strStartsWith p "og:" = true := by
  unfold ogFilter at hf
  rw [hp] at hf
  simp only [Bool.and_eq_true, beq_iff_eq, bne_iff_ne, ne_eq] at hf
  exact ⟨hf.1, hf.2.1, hf.2.2⟩

theorem parse_mem_spec {doc : List MetaTag} {p c : String}
    (h : (p, c) ∈ parse_opengraph_meta doc) :
    p ≠ "" ∧ c ≠ "" ∧ strStartsWith p "og:" = true ∧
      ∃ tag ∈ doc, tag.name = "meta" ∧ tag.property = some p ∧ tag.content = some c := by
  unfold parse_opengraph_meta at h
  have key : ∀ (l : List MetaTag) (d : List (String × String)),
      (p, c) ∈ l.foldl recordTag d → (p, c) ∈ d ∨ ∃ t ∈ l, recVal p t = some c := by
    intro l
    induction l with
    | nil =>
      intro d h2
      exact Or.inl h2
    | cons t l ih =>
      intro d h2
      rw [List.foldl_cons] at h2
      rcases ih _ h2 with h3 | ⟨t₁, ht₁, hv⟩
      · rcases mem_recordTag h3 with h4 | h4
        · exact Or.inl h4
        · exact Or.inr ⟨t, List.mem_cons_self _ _, h4⟩
      · exact Or.inr ⟨t₁, List.mem_cons_of_mem _ ht₁, hv⟩
  rcases key _ _ h with h2 | ⟨t, ht, hv⟩
  · simp at h2
  · obtain ⟨htdoc, htf⟩ := List.mem_filter.1 ht
    obtain ⟨hprop, hcont, hpne, hcne⟩ := recVal_some hv
    obtain ⟨hname, _, hsw⟩ := ogFilter_spec htf hprop
    exact ⟨hpne, hcne, hsw, t, htdoc, hname, hprop, hcont⟩

/-! The generator's emission structure. -/

theorem foldl_meta_eq (og : List (String × String)) (init : String) :
    og.foldl
        (fun html pc =>
          html ++ "    <meta property=\"" ++ pc.1 ++ "\" content=\"" ++ pc.2 ++ "\">\n")
        init
      = init ++ strConcat (og.map fun pc => ogMetaLine pc.1 pc.2) := by
  induction og generalizing init with
  | nil => simp [strConcat, strAppend_empty]
  | cons pc og ih =>
    simp only [List.foldl_cons, List.map_cons, strConcat, ih]
    apply strExt
    simp [strData_append, ogMetaLine, List.append_assoc]

theorem generate_decomp (url : String) (og : List (String × String)) :
    generate_redirect_html url og
      = docHead ++ refreshLine url
          ++ strConcat (og.map fun pc => ogMetaLine pc.1 pc.2) ++ docTail url := by
  simp only [generate_redirect_html]
  rw [foldl_meta_eq]
  apply strExt
  simp only [strData_append, docHead, refreshLine, docTail, List.append_assoc]
  rfl

/-- C1: for every destination URL and metadata set, the generated document is
exactly the fixed head, followed by one refresh meta line requesting 0-second
navigation to the destination, followed by one `<meta property content>` line
per metadata entry in the set's iteration order, followed by the head closing
and the body: the refresh directive is emitted exactly once, and exactly one
meta line per entry appears, after the refresh directive and before the
closing of the document head. -/
theorem generated_document_structure (url : String) (og : List (String × String)) :
    generate_redirect_html url og
      = docHead ++ refreshLine url
          ++ strConcat (og.map fun pc => ogMetaLine pc.1 pc.2) ++ docTail url ∧
    (og.map fun pc => ogMetaLine pc.1 pc.2).length = og.length :=
  ⟨generate_decomp url og, by simp⟩

/-- C9: the generator is a pure, deterministic function of its two inputs:
two invocations on identical inputs produce byte-identical output. -/
theorem generator_deterministic (url₁ url₂ : String) (og₁ og₂ : List (String × String))
    (h₁ : url₁ = url₂) (h₂ : og₁ = og₂) :
    generate_redirect_html url₁ og₁ = generate_redirect_html url₂ og₂ := by
  rw [h₁, h₂]

/-- Witness for C9 at a concrete input. -/
theorem generator_deterministic_check :
    generate_redirect_html "https://example.com" [("og:title", "Example")]
      = generate_redirect_html "https://example.com" [("og:title", "Example")] :=
  generator_deterministic _ _ _ _ rfl rfl

/-- C6: the output filename is the key with `.html` appended exactly when the
key does not already end in `.html`; a key already ending in `.html` is used
unchanged (never a double suffix). -/
theorem output_filename_rule (src : String) :
    (outputName src = src ++ ".html" ↔ strEndsWith src ".html" = false) ∧
    (strEndsWith src ".html" = true → outputName src = src) := by
  have hlen : (src ++ ".html").data.length = src.data.length + 5 := by
    simp [strData_append]
  have hne : src ≠ src ++ ".html" := by
    intro h
    have h3 : src.data.length = (src ++ ".html").data.length :=
      congrArg (fun s : String => s.data.length) h
    rw [hlen] at h3
    omega
  cases h : strEndsWith src ".html" with
  | true =>
    have ho : outputName src = src := by simp [outputName, h]
    refine ⟨⟨fun h2 => ?_, fun h2 => by simp [h] at h2⟩, fun _ => ho⟩
    rw [ho] at h2
    exact absurd h2 hne
  | false =>
    have ho : outputName src = src ++ ".html" := by simp [outputName, h]
    exact ⟨⟨fun _ => rfl, fun _ => ho⟩, fun h2 => by simp [h] at h2⟩

/-- Witness for C6 at the keys "foo" and "foo.html". -/
theorem output_filename_rule_check :
    outputName "foo" = "foo" ++ ".html" ∧ outputName "foo.html" = "foo.html" :=
  ⟨(output_filename_rule "foo").1.mpr (by decide),
   (output_filename_rule "foo.html").2 (by decide)⟩

/-- C8: processing never consults the HTTP status code: two fetch oracles
whose results agree on errors and on response bodies (statuses may differ
arbitrarily, e.g. 200 vs 404) yield identical runs — the same files, with the
same extracted metadata and generated pages, and the same final error. -/
theorem status_code_independent (f₁ f₂ : String → Except String Response)
    (h : ∀ u, exceptBody (f₁ u) = exceptBody (f₂ u))
    (out_dir : String) (pairs : List (String × String)) :
    runRedirects f₁ out_dir pairs = runRedirects f₂ out_dir pairs := by
  induction pairs with
  | nil => rfl
  | cons pr rest ih =>
    obtain ⟨src, dst⟩ := pr
    have hd := h dst
    cases h₁ : f₁ dst with
    | error e₁ =>
      cases h₂ : f₂ dst with
      | error e₂ =>
        rw [h₁, h₂] at hd
        simp only [exceptBody, Except.error.injEq] at hd
        subst hd
        simp [runRedirects, h₁, h₂]
      | ok r₂ =>
        rw [h₁, h₂] at hd
        simp [exceptBody] at hd
    | ok r₁ =>
      cases h₂ : f₂ dst with
      | error e₂ =>
        rw [h₁, h₂] at hd
        simp [exceptBody] at hd
      | ok r₂ =>
        rw [h₁, h₂] at hd
        simp only [exceptBody, Except.ok.injEq] at hd
        simp [runRedirects, h₁, h₂, processPair, hd, ih]

/-- Witness for C8: a 200 oracle and a 404 oracle with the same bodies give
identical runs. -/
theorem status_code_independent_check :
    runRedirects (fun _ => .ok ⟨200, []⟩) "out" [("a", "u")]
      = runRedirects (fun _ => .ok ⟨404, []⟩) "out" [("a", "u")] :=
  status_code_independent _ _ (fun _ => rfl) "out" _

/-- C2: if the fetch fails at some pair while all earlier fetches succeed,
the run aborts with the error message naming the failing destination, the
files written are exactly the files of the earlier pairs (one per earlier
pair), and nothing is written for the failing or any subsequent pair. -/
theorem fetch_failure_aborts (fetch : String → Except String Response)
    (out_dir src dst e : String) (earlier later : List (String × String))
    (hok : ∀ pr ∈ earlier, ∃ r, fetch pr.2 = .ok r)
    (herr : fetch dst = .error e) :
    (runRedirects fetch out_dir (earlier ++ (src, dst) :: later)).1
        = (runRedirects fetch out_dir earlier).1 ∧
    (runRedirects fetch out_dir earlier).1.length = earlier.length ∧
    (runRedirects fetch out_dir (earlier ++ (src, dst) :: later)).2
        = some ("Error fetching " ++ dst ++ ": " ++ e) := by
  induction earlier with
  | nil => simp [runRedirects, herr]
  | cons pr rest ih =>
    obtain ⟨s, d⟩ := pr
    obtain ⟨r, hr⟩ := hok (s, d) (List.mem_cons_self _ _)
    have ih2 := ih (fun q hq => hok q (List.mem_cons_of_mem _ hq))
    simp [runRedirects, hr, ih2.1, ih2.2.1, ih2.2.2]

/-- Witness for C2: with an oracle failing exactly on "bad", the run over
pairs a, b, c (b fetching "bad") writes only a's file and reports the
failing destination. -/
theorem fetch_failure_aborts_check :
    (runRedirects (fun u => if u = "bad" then .error "boom" else .ok ⟨200, []⟩) "out"
        ([("a", "good")] ++ ("b", "bad") :: [("c", "good2")])).1
      = (runRedirects (fun u => if u = "bad" then .error "boom" else .ok ⟨200, []⟩) "out"
          [("a", "good")]).1 ∧
    (runRedirects (fun u => if u = "bad" then .error "boom" else .ok ⟨200, []⟩) "out"
        [("a", "good")]).1.length = 1 ∧
    (runRedirects (fun u => if u = "bad" then .error "boom" else .ok ⟨200, []⟩) "out"
        ([("a", "good")] ++ ("b", "bad") :: [("c", "good2")])).2
      = some ("Error fetching " ++ "bad" ++ ": " ++ "boom") :=
  fetch_failure_aborts _ "out" "b" "bad" "boom" [("a", "good")] [("c", "good2")]
    (by
      intro pr hpr
      simp only [List.mem_singleton] at hpr
      subst hpr
      exact ⟨⟨200, []⟩, rfl⟩)
    rfl

/-- C3: when at least two qualifying tags of the document share the same
property value, the extractor's result contains exactly one entry for that
property, and its value is the content contributed by the last (latest
occurring) qualifying tag with that property. -/
theorem duplicate_property_last_wins (doc : List MetaTag) (p : String)
    (h : 2 ≤ (qualVals p doc).length) :
    countKey p (parse_opengraph_meta doc) = 1 ∧
    dlookup p (parse_opengraph_meta doc) = lastOpt (qualVals p doc) := by
  have hlook : dlookup p (parse_opengraph_meta doc) = lastOpt (qualVals p doc) :=
    dlookup_parse p doc
  refine ⟨?_, hlook⟩
  cases hq : qualVals p doc with
  | nil => simp [hq] at h
  | cons a l =>
    obtain ⟨c, hc⟩ := lastOpt_cons_isSome a l
    have hsome : dlookup p (parse_opengraph_meta doc) = some c := by
      rw [hlook, hq, hc]
    exact countKey_eq_one (nodup_keys_parse doc) (dlookup_mem hsome)

/-- Witness for C3: two tags for og:title, the later content wins and the
property has a single entry. -/
theorem duplicate_property_last_wins_check :
    countKey "og:title"
        (parse_opengraph_meta
          [⟨"meta", some "og:title", some "A"⟩, ⟨"meta", some "og:title", some "B"⟩]) = 1 ∧
    dlookup "og:title"
        (parse_opengraph_meta
          [⟨"meta", some "og:title", some "A"⟩, ⟨"meta", some "og:title", some "B"⟩])
      = lastOpt (qualVals "og:title"
          [⟨"meta", some "og:title", some "A"⟩, ⟨"meta", some "og:title", some "B"⟩]) :=
  duplicate_property_last_wins _ "og:title" (by decide)

/-- C4: every entry recorded by the extractor has a non-empty property name
and a non-empty content value, and arises from a `meta` tag of the document
in which both attributes are present: a tag with a missing or empty
`content` is never recorded (not even with a null or empty value). -/
theorem partial_tags_excluded (doc : List MetaTag) (p c : String)
    (h : (p, c) ∈ parse_opengraph_meta doc) :
    c ≠ "" ∧ p ≠ "" ∧
      ∃ tag ∈ doc, tag.name = "meta" ∧ tag.property = some p ∧ tag.content = some c := by
  obtain ⟨hpne, hcne, _, htag⟩ := parse_mem_spec h
  exact ⟨hcne, hpne, htag⟩

/-- Witness for C4: a document with a content-less og:image tag and a full
og:title tag records only the full tag. -/
theorem partial_tags_excluded_check :
    ("T" : String) ≠ "" ∧ ("og:title" : String) ≠ "" ∧
      ∃ tag ∈ ([⟨"meta", some "og:image", none⟩, ⟨"meta", some "og:title", some "T"⟩] :
          List MetaTag),
        tag.name = "meta" ∧ tag.property = some "og:title" ∧ tag.content = some "T" :=
  partial_tags_excluded _ "og:title" "T" (by decide)

/-- C10: every key of the mapping returned by the extractor begins with the
literal prefix "og:". -/
theorem keys_og_prefixed (doc : List MetaTag) (p c : String)
    (h : (p, c) ∈ parse_opengraph_meta doc) : strStartsWith p "og:" = true :=
  (parse_mem_spec h).2.2.1

/-- Witness for C10 at a one-tag document. -/
theorem keys_og_prefixed_check : strStartsWith "og:image" "og:" = true :=
  keys_og_prefixed [⟨"meta", some "og:image", some "I"⟩] "og:image" "I" (by decide)

theorem occursIn_mono {x y z : String} (h₁ : occursIn x y) (h₂ : occursIn y z) :
    occursIn x z := by
  obtain ⟨a, b, hy⟩ := h₁
  obtain ⟨a₁, b₁, hz⟩ := h₂
  refine ⟨a₁ ++ a, b ++ b₁, ?_⟩
  rw [hz, hy]
  apply strExt
  simp [strData_append, List.append_assoc]

theorem occursIn_strConcat {s : String} {l : List String} (h : s ∈ l) :
    occursIn s (strConcat l) := by
  induction l with
  | nil => simp at h
  | cons t l ih =>
    rcases List.mem_cons.1 h with h | h
    · subst h
      refine ⟨"", strConcat l, ?_⟩
      show s ++ strConcat l = "" ++ s ++ strConcat l
      rw [strEmpty_append]
    · obtain ⟨a, b, hb⟩ := ih h
      refine ⟨t ++ a, b, ?_⟩
      show t ++ strConcat l = t ++ a ++ s ++ b
      rw [hb]
      apply strExt
      simp [strData_append, List.append_assoc]

/-- C5: the destination URL and every metadata property name and content
value are embedded verbatim in the generated document (no HTML escaping):
each appears unchanged as a contiguous substring, whatever characters of
HTML significance it contains. -/
theorem values_embedded_verbatim (url : String) (og : List (String × String)) :
    occursIn url (generate_redirect_html url og) ∧
    ∀ pc ∈ og, occursIn pc.1 (generate_redirect_html url og) ∧
      occursIn pc.2 (generate_redirect_html url og) := by
  rw [generate_decomp]
  constructor
  · have h₁ : occursIn url (refreshLine url) :=
      ⟨"    <meta http-equiv=\"refresh\" content=\"0; url=", "\">\n", rfl⟩
    have h₂ : occursIn (refreshLine url)
        (docHead ++ refreshLine url
          ++ strConcat (og.map fun pc => ogMetaLine pc.1 pc.2) ++ docTail url) := by
      refine ⟨docHead,
        strConcat (og.map fun pc => ogMetaLine pc.1 pc.2) ++ docTail url, ?_⟩
      apply strExt
      simp [strData_append, List.append_assoc]
    exact occursIn_mono h₁ h₂
  · intro pc hpc
    have hmem : ogMetaLine pc.1 pc.2 ∈ og.map fun pc => ogMetaLine pc.1 pc.2 :=
      List.mem_map.2 ⟨pc, hpc, rfl⟩
    obtain ⟨a, b, hb⟩ := occursIn_strConcat hmem
    have hline : occursIn (ogMetaLine pc.1 pc.2)
        (docHead ++ refreshLine url
          ++ strConcat (og.map fun pc => ogMetaLine pc.1 pc.2) ++ docTail url) := by
      refine ⟨docHead ++ refreshLine url ++ a, b ++ docTail url, ?_⟩
      rw [hb]
      apply strExt
      simp [strData_append, List.append_assoc]
    constructor
    · refine occursIn_mono ⟨"    <meta property=\"",
        "\" content=\"" ++ pc.2 ++ "\">\n", ?_⟩ hline
      apply strExt
      simp [ogMetaLine, strData_append, List.append_assoc]
    · refine occursIn_mono ⟨"    <meta property=\"" ++ pc.1 ++ "\" content=\"",
        "\">\n", ?_⟩ hline
      apply strExt
      simp [ogMetaLine, strData_append, List.append_assoc]

/-- Witness for C5: a content value holding quotes and angle brackets occurs
verbatim in the generated page. -/
theorem values_embedded_verbatim_check :
    occursIn "<i>\"&" (generate_redirect_html "https://e/?q=\"<>" [("og:t", "<i>\"&")]) :=
  ((values_embedded_verbatim "https://e/?q=\"<>" [("og:t", "<i>\"&")]).2
    ("og:t", "<i>\"&") (List.mem_singleton.2 rfl)).2

/-- Counterexample to C7 as stated: the mapping key "a/b" produces the
filename "a/b.html", whose separator makes the output path nest inside a
subdirectory derived from the key. -/
theorem key_with_separator_nests :
    ¬ keyNestingFree "a/b" ∧ joinPath "out" (outputName "a/b") = "out/a/b.html" :=
  ⟨fun h => h (by decide), by decide⟩

/-- C7 (amended): for every mapping key containing no path separator, the
generated file is placed directly inside the output directory — the derived
filename contributes no separator, and (for a normal output directory:
non-empty and not ending in a separator) the output path is the output
directory, one separator, and the filename. -/
theorem placed_directly_in_out_dir (out_dir src : String)
    (hsrc : '/' ∉ src.data) (h₁ : out_dir ≠ "")
    (h₂ : out_dir.data.getLast? ≠ some '/') :
    keyNestingFree src ∧
    joinPath out_dir (outputName src) = out_dir ++ "/" ++ outputName src := by
  have hname : '/' ∉ (outputName src).data := by
    unfold outputName
    by_cases he : strEndsWith src ".html"
    · rw [if_pos he]
      exact hsrc
    · rw [if_neg he, strData_append]
      intro hm
      rcases List.mem_append.1 hm with hm | hm
      · exact hsrc hm
      · exact absurd hm (by decide)
  have hb : ¬ ((outputName src).data.head? = some '/') := by
    intro hh
    apply hname
    cases hd : (outputName src).data with
    | nil =>
      rw [hd] at hh
      cases hh
    | cons x xs =>
      rw [hd] at hh
      have hx : x = '/' := by simpa using hh
      subst hx
      exact List.mem_cons_self _ _
  have ha : ¬ (out_dir = "" ∨ out_dir.data.getLast? = some '/') := by
    rintro (h₃ | h₃)
    · exact h₁ h₃
    · exact h₂ h₃
  refine ⟨hname, ?_⟩
  unfold joinPath
  rw [if_neg hb, if_neg ha]

/-- Witness for the amended C7 at the key "foo" and directory "out". -/
theorem placed_directly_in_out_dir_check :
    keyNestingFree "foo" ∧
    joinPath "out" (outputName "foo") = "out" ++ "/" ++ outputName "foo" :=
  placed_directly_in_out_dir "out" "foo" (by decide) (by decide) (by decide)

end Redirects
